import Mathlib

/-!
# Verification of the heck case-conversion core

Shallow embedding of the word-boundary segmentation engine (`transform` in
`src/lib.rs`) together with the transform primitives `lowercase`, `uppercase`,
`capitalize` and the two renderers `to_camel_case` (`src/camel.rs`) and
`to_mixed_case` (`src/mixed.rs`).

Strings are modelled as `List Char`.  The Rust code slices the input by byte
indices `init..i`; since every slice boundary falls on a character boundary,
we carry the slice under construction as an explicit accumulator `pending`
(the characters in `word[init..i]`); `init == i` corresponds to
`pending = []`.  The formatter together with the fallible callbacks is
modelled by explicit state passing in `Except`.
-/

namespace Heck

/-- Model of Rust `char::is_lowercase` (Unicode `Lowercase` property),
restricted to the character repertoire exercised here: ASCII letters plus
σ (U+03C3), ς (U+03C2), ß (U+00DF) and the ﬄ ligature (U+FB04), all of
which carry `Lowercase=Yes`. -/
def is_lowercase (c : Char) : Bool :=
  ('a' ≤ c && c ≤ 'z') || c == 'σ' || c == 'ς' || c == 'ß' || c == 'ﬄ'

/-- Model of Rust `char::is_uppercase` (Unicode `Uppercase` property),
restricted as in `is_lowercase`: ASCII capitals plus Σ (U+03A3). -/
def is_uppercase (c : Char) : Bool :=
  ('A' ≤ c && c ≤ 'Z') || c == 'Σ'

/-- Model of Rust `char::to_lowercase` (which yields a character sequence):
ASCII capitals map into `a`–`z`, Σ maps to the medial σ, everything else in
our repertoire is already lowercase or uncased and maps to itself. -/
def to_lowercase_char (c : Char) : List Char :=
  if 'A' ≤ c && c ≤ 'Z' then [Char.ofNat (c.toNat + 32)]
  else if c == 'Σ' then ['σ']
  else [c]

/-- Model of Rust `char::to_uppercase` (which yields a character sequence and
may expand): ASCII `a`–`z` map to capitals, σ and ς map to Σ, ß expands to
`SS`, the ﬄ ligature expands to `FFL`, everything else maps to itself. -/
def to_uppercase_char (c : Char) : List Char :=
  if 'a' ≤ c && c ≤ 'z' then [Char.ofNat (c.toNat - 32)]
  else if c == 'σ' || c == 'ς' then ['Σ']
  else if c == 'ß' then ['S', 'S']
  else if c == 'ﬄ' then ['F', 'F', 'L']
  else [c]

/-- Alphanumeric characters for word segmentation (digits plus the cased
letters modelled above). -/
def is_word_alnum (c : Char) : Bool :=
  ('0' ≤ c && c ≤ '9') || is_lowercase c || is_uppercase c

/-- Characters that stay inside one Unicode word: alphanumerics, plus the
underscore, which in UAX#29 has word-break class `ExtendNumLet` and hence
never breaks a word internally. -/
def is_word_char (c : Char) : Bool :=
  is_word_alnum c || c == '_'

/-- Maximal runs of word characters (accumulator holds the current run in
reverse). -/
def word_runs : List Char → List Char → List (List Char)
  | [], acc => if acc = [] then [] else [acc.reverse]
  | c :: cs, acc =>
    if is_word_char c then word_runs cs (c :: acc)
    else if acc = [] then word_runs cs []
    else acc.reverse :: word_runs cs []

/-- Model of the `unicode_words` iterator of `unicode_segmentation` (an external crate used
by `transform`): split into maximal runs of word characters and keep only
runs containing at least one alphanumeric, matching UAX#29 word segmentation
on the repertoire exercised here (a run of pure separators is not a word). -/
def unicode_words (s : List Char) : List (List Char) :=
  (word_runs s []).filter (fun wrun => wrun.any is_word_alnum)

/-- Tri-state scan mode of `transform`: case of the last cased character of
the current word (`Boundary` when none since the last boundary). -/
inductive WordMode
  | Boundary
  | Lowercase
  | Uppercase
deriving DecidableEq, Repr

/-- A callback invocation performed by `transform`: a word emission carrying
the emitted slice, or a boundary emission. -/
inductive Event
  | word : List Char → Event
  | boundary : Event
deriving DecidableEq, Repr

/-- The `next_mode` computation inside the scan loop of `transform`: the mode
including the current character, assuming the current character does not
result in a word boundary. -/
def next_mode_of (mode : WordMode) (c : Char) : WordMode :=
  if is_lowercase c = true then WordMode.Lowercase
  else if is_uppercase c = true then WordMode.Uppercase
  else mode

/-- The inner `while let` loop of `transform` over one Unicode word.
Arguments mirror the Rust state: remaining characters (`char_indices` with
one character of lookahead: the singleton case is `peek() == None`), `mode`,
the slice under construction `pending` (= `word[init..i]`), the cross-word
`first_word` flag and the formatter state `f`.  Returns the updated
`(first_word, f)` or the first callback error. -/
def transform_word {σ ε : Type} (with_word : List Char → σ → Except ε σ)
    (boundary : σ → Except ε σ) :
    List Char → WordMode → List Char → Bool → σ → Except ε (Bool × σ)
  | [], _, _, fw, f => .ok (fw, f)
  | [c], _, pending, fw, f =>
    -- last character: `peek()` is `None`
    if c = '_' then
      -- skip underscore; loop then ends with nothing flushed
      .ok (fw, f)
    else
      -- collect trailing characters as a word
      match (if fw then Except.ok f else boundary f) with
      | .error e => .error e
      | .ok f1 =>
        match with_word (pending ++ [c]) f1 with
        | .error e => .error e
        | .ok f2 => .ok (false, f2)
  | c :: next :: rest, mode, pending, fw, f =>
    if c = '_' then
      -- skip underscore characters: `if init == i { init += 1 }`
      transform_word with_word boundary (next :: rest) mode
        (if pending = [] then [] else pending ++ [c]) fw f
    else
      -- word boundary after: next is underscore, or current run became
      -- lowercase and next is uppercase
      if next = '_' ∨ (next_mode_of mode c = WordMode.Lowercase ∧ is_uppercase next = true) then
        match (if fw then Except.ok f else boundary f) with
        | .error e => .error e
        | .ok f1 =>
          match with_word (pending ++ [c]) f1 with
          | .error e => .error e
          | .ok f2 =>
            transform_word with_word boundary (next :: rest)
              WordMode.Boundary [] false f2
      -- word boundary before the last uppercase of a run followed by lowercase
      else if mode = WordMode.Uppercase ∧ is_uppercase c = true ∧ is_lowercase next = true then
        match (if fw then Except.ok f else boundary f) with
        | .error e => .error e
        | .ok f1 =>
          match with_word pending f1 with
          | .error e => .error e
          | .ok f2 =>
            transform_word with_word boundary (next :: rest)
              WordMode.Boundary [c] false f2
      -- otherwise no boundary, just update the mode
      else
        transform_word with_word boundary (next :: rest) (next_mode_of mode c)
          (pending ++ [c]) fw f

/-- The `for word in s.unicode_words()` loop of `transform`, threading the
`first_word` flag and the formatter state across Unicode words. -/
def transform_words {σ ε : Type} (with_word : List Char → σ → Except ε σ)
    (boundary : σ → Except ε σ) :
    List (List Char) → Bool → σ → Except ε σ
  | [], _, f => .ok f
  | wd :: ws, fw, f =>
    match transform_word with_word boundary wd WordMode.Boundary [] fw f with
    | .error e => .error e
    | .ok (fw2, f2) => transform_words with_word boundary ws fw2 f2

/-- Function `transform` from `src/lib.rs`: segment `s` and feed the sub-words and
boundaries to the two callbacks, aborting on the first callback error. -/
def transform {σ ε : Type} (s : List Char) (with_word : List Char → σ → Except ε σ)
    (boundary : σ → Except ε σ) (f : σ) : Except ε σ :=
  transform_words with_word boundary (unicode_words s) true f

/-- Pure shadow of the inner loop: the list of slices `transform_word` emits,
in emission order (proved equivalent below). -/
def sub_words_go : List Char → WordMode → List Char → List (List Char)
  | [], _, _ => []
  | [c], _, pending => if c = '_' then [] else [pending ++ [c]]
  | c :: next :: rest, mode, pending =>
    if c = '_' then
      sub_words_go (next :: rest) mode (if pending = [] then [] else pending ++ [c])
    else
      if next = '_' ∨ (next_mode_of mode c = WordMode.Lowercase ∧ is_uppercase next = true) then
        (pending ++ [c]) :: sub_words_go (next :: rest) WordMode.Boundary []
      else if mode = WordMode.Uppercase ∧ is_uppercase c = true ∧ is_lowercase next = true then
        pending :: sub_words_go (next :: rest) WordMode.Boundary [c]
      else
        sub_words_go (next :: rest) (next_mode_of mode c) (pending ++ [c])

/-- The sub-words of one Unicode word, in emission order. -/
def sub_words (wd : List Char) : List (List Char) :=
  sub_words_go wd WordMode.Boundary []

/-- All sub-words the engine emits for input `s`, in emission order. -/
def all_sub_words (s : List Char) : List (List Char) :=
  ((unicode_words s).map sub_words).flatten

/-- The callback pattern as events: under `first_word = fw`, each sub-word
becomes a `word` event, preceded by a `boundary` event unless it is the very
first emission of the whole input. -/
def render_events : Bool → List (List Char) → List Event
  | _, [] => []
  | true, sw :: ws => .word sw :: render_events false ws
  | false, sw :: ws => .boundary :: .word sw :: render_events false ws

/-- The full event trace of `transform` on input `s`. -/
def transform_trace (s : List Char) : List Event :=
  render_events true (all_sub_words s)

/-- Apply one event to the callbacks. -/
def step_event {σ ε : Type} (with_word : List Char → σ → Except ε σ)
    (boundary : σ → Except ε σ) : Event → σ → Except ε σ
  | .word sw, f => with_word sw f
  | .boundary, f => boundary f

/-- Run a list of events through the callbacks, aborting on the first
error. -/
def run_events {σ ε : Type} (with_word : List Char → σ → Except ε σ)
    (boundary : σ → Except ε σ) : List Event → σ → Except ε σ
  | [], f => .ok f
  | ev :: evs, f =>
    match step_event with_word boundary ev f with
    | .error e => .error e
    | .ok f2 => run_events with_word boundary evs f2

/-- Function `lowercase` from `src/lib.rs`: per-character Unicode lowercasing, except
that a capital Σ in final position (lookahead `peek()` is `None`) maps to the
final form ς. -/
def lowercase : List Char → List Char
  | [] => []
  | [c] => if c = 'Σ' then ['ς'] else to_lowercase_char c
  | c :: next :: rest => to_lowercase_char c ++ lowercase (next :: rest)

/-- Function `uppercase` from `src/lib.rs`: per-character Unicode uppercasing. -/
def uppercase : List Char → List Char
  | [] => []
  | c :: rest => to_uppercase_char c ++ uppercase rest

/-- Function `capitalize` from `src/lib.rs`: uppercase the first character, lowercase
the remainder (the remainder includes the trailing-sigma rule). -/
def capitalize : List Char → List Char
  | [] => []
  | c :: rest => to_uppercase_char c ++ lowercase rest

/-- Character-level `to_camel_case` (`AsCamelCase::fmt` in `src/camel.rs`):
`transform` with `capitalize` as word callback and a no-op boundary,
collecting formatter output into a character buffer. -/
def camel_chars (s : List Char) : List Char :=
  match (transform s (fun sw f => .ok (f ++ capitalize sw)) (fun f => .ok f) [] :
      Except Empty (List Char)) with
  | .ok f => f
  | .error e => nomatch e

/-- Character-level `to_mixed_case` (`AsMixedCase::fmt` in `src/mixed.rs`):
`transform` whose word callback lowercases the first emitted word and
capitalizes the rest, with a no-op boundary; the `first` flag of the closure is
part of the state. -/
def mixed_chars (s : List Char) : List Char :=
  match (transform s
      (fun sw p => .ok (false, p.2 ++ (if p.1 then lowercase sw else capitalize sw)))
      (fun p => .ok p) (true, []) : Except Empty (Bool × List Char)) with
  | .ok p => p.2
  | .error e => nomatch e

/-- Method `to_camel_case` on `str` from `src/camel.rs`. -/
def to_camel_case (s : String) : String :=
  String.mk (camel_chars s.data)

/-- Method `to_mixed_case` on `str` from `src/mixed.rs`. -/
def to_mixed_case (s : String) : String :=
  String.mk (mixed_chars s.data)

/-- Predicate stating that `xs` occurs as a contiguous segment of `ys`. -/
def SubSeg (xs ys : List Char) : Prop :=
  ∃ as bs, ys = as ++ xs ++ bs

/-! ## Event-trace lemmas -/

theorem render_events_nil (fw : Bool) : render_events fw [] = [] := by
  cases fw <;> rfl

theorem render_events_cons (fw : Bool) (sw : List Char) (ws : List (List Char)) :
    render_events fw (sw :: ws)
      = (if fw then [Event.word sw] else [Event.boundary, Event.word sw])
        ++ render_events false ws := by
  cases fw <;> rfl

theorem render_events_append (l1 l2 : List (List Char)) : ∀ fw : Bool,
    render_events fw (l1 ++ l2)
      = render_events fw l1 ++ render_events (fw && l1.isEmpty) l2 := by
  induction l1 with
  | nil =>
    intro fw
    simp [render_events_nil]
  | cons sw ws ih =>
    intro fw
    simp only [List.cons_append, render_events_cons, ih false, List.isEmpty_cons,
      Bool.and_false, Bool.false_and, List.append_assoc]

theorem run_events_append {σ ε : Type} (w : List Char → σ → Except ε σ)
    (b : σ → Except ε σ) (l1 l2 : List Event) : ∀ f : σ,
    run_events w b (l1 ++ l2) f
      = match run_events w b l1 f with
        | .ok f2 => run_events w b l2 f2
        | .error e => (.error e : Except ε σ) := by
  induction l1 with
  | nil => intro f; rfl
  | cons ev evs ih =>
    intro f
    simp only [List.cons_append, run_events]
    cases step_event w b ev f <;> simp [ih]

/-! ## The bridge: `transform` performs exactly the event trace -/

theorem transform_word_eq {σ ε : Type} (w : List Char → σ → Except ε σ)
    (b : σ → Except ε σ) (cs : List Char) (mode : WordMode) (pending : List Char) :
    ∀ (fw : Bool) (f : σ),
    transform_word w b cs mode pending fw f
      = (run_events w b (render_events fw (sub_words_go cs mode pending)) f).map
          (fun f2 => (fw && (sub_words_go cs mode pending).isEmpty, f2)) := by
  induction cs, mode, pending using sub_words_go.induct with
  | case1 mode pending =>
    intro fw f
    simp [transform_word, sub_words_go, render_events_nil, run_events, Except.map]
  | case2 mode pending =>
    intro fw f
    simp [transform_word, sub_words_go, render_events_nil, run_events, Except.map]
  | case3 c mode pending hc =>
    intro fw f
    simp only [transform_word, sub_words_go, if_neg hc]
    cases fw with
    | false =>
      simp only [render_events, run_events, step_event, Bool.false_and]
      cases hbf : b f with
      | error e => simp [hbf, Except.map]
      | ok f1 =>
        cases hwx : w (pending ++ [c]) f1 with
        | error e => simp [hbf, hwx, run_events, step_event, Except.map]
        | ok f2 => simp [hbf, hwx, run_events, step_event, Except.map]
    | true =>
      simp only [render_events, run_events, step_event]
      cases hwx : w (pending ++ [c]) f with
      | error e => simp [hwx, Except.map]
      | ok f2 => simp [hwx, run_events, Except.map]
  | case4 next rest mode pending ih =>
    intro fw f
    simp only [transform_word, sub_words_go, if_pos rfl]
    exact ih fw f
  | case5 c next rest mode pending hc hg ih =>
    intro fw f
    simp only [transform_word, sub_words_go, if_neg hc, if_pos hg]
    cases fw with
    | false =>
      simp only [render_events, run_events, step_event, Bool.false_and,
        List.isEmpty_cons]
      cases hbf : b f with
      | error e => simp [hbf, Except.map]
      | ok f1 =>
        cases hwx : w (pending ++ [c]) f1 with
        | error e => simp [hbf, hwx, run_events, step_event, Except.map]
        | ok f2 =>
          simp [hbf, hwx, run_events, step_event, ih false f2, Bool.false_and]
    | true =>
      simp only [render_events, run_events, step_event, Bool.true_and,
        List.isEmpty_cons]
      cases hwx : w (pending ++ [c]) f with
      | error e => simp [hwx, Except.map]
      | ok f2 => simp [hwx, run_events, ih false f2, Bool.false_and]
  | case6 c next rest mode pending hc hg1 hg2 ih =>
    intro fw f
    simp only [transform_word, sub_words_go, if_neg hc, if_neg hg1, if_pos hg2]
    cases fw with
    | false =>
      simp only [render_events, run_events, step_event, Bool.false_and,
        List.isEmpty_cons]
      cases hbf : b f with
      | error e => simp [hbf, Except.map]
      | ok f1 =>
        cases hwx : w pending f1 with
        | error e => simp [hbf, hwx, run_events, step_event, Except.map]
        | ok f2 =>
          simp [hbf, hwx, run_events, step_event, ih false f2, Bool.false_and]
    | true =>
      simp only [render_events, run_events, step_event, Bool.true_and,
        List.isEmpty_cons]
      cases hwx : w pending f with
      | error e => simp [hwx, Except.map]
      | ok f2 => simp [hwx, run_events, ih false f2, Bool.false_and]
  | case7 c next rest mode pending hc hg1 hg2 ih =>
    intro fw f
    simp only [transform_word, sub_words_go, if_neg hc, if_neg hg1, if_neg hg2]
    exact ih fw f

theorem transform_words_eq {σ ε : Type} (w : List Char → σ → Except ε σ)
    (b : σ → Except ε σ) (ws : List (List Char)) : ∀ (fw : Bool) (f : σ),
    transform_words w b ws fw f
      = run_events w b (render_events fw ((ws.map sub_words).flatten)) f := by
  induction ws with
  | nil => intro fw f; simp [transform_words, render_events_nil, run_events]
  | cons wd ws ih =>
    intro fw f
    simp only [transform_words, List.map_cons, List.flatten_cons]
    rw [render_events_append, run_events_append, sub_words, transform_word_eq]
    cases hrun : run_events w b
        (render_events fw (sub_words_go wd WordMode.Boundary [])) f with
    | error e => simp [Except.map]
    | ok f1 => simp [Except.map, ih, sub_words]

/-- Main bridge: `transform` is exactly the event trace run through the
callbacks. -/
theorem transform_eq_run_trace {σ ε : Type} (w : List Char → σ → Except ε σ)
    (b : σ → Except ε σ) (s : List Char) (f : σ) :
    transform s w b f = run_events w b (transform_trace s) f := by
  simp [transform, transform_trace, all_sub_words, transform_words_eq]

/-- The event trace alternates: one `word` event per sub-word, with
`boundary` events strictly between consecutive `word` events. -/
theorem render_events_true_intersperse (ws : List (List Char)) :
    render_events true ws = List.intersperse Event.boundary (ws.map Event.word) := by
  induction ws with
  | nil => rfl
  | cons sw rest ih =>
    cases rest with
    | nil => rfl
    | cons sw2 rest2 =>
      rw [List.map_cons, List.map_cons, List.intersperse_cons_cons,
        ← List.map_cons, ← ih]
      rfl

theorem trace_intersperse (s : List Char) :
    transform_trace s
      = List.intersperse Event.boundary ((all_sub_words s).map Event.word) := by
  rw [transform_trace, render_events_true_intersperse]

/-! ## Invariants of the scan loop -/

theorem SubSeg.prepend (zs : List Char) {xs ys : List Char} (h : SubSeg xs ys) :
    SubSeg xs (zs ++ ys) := by
  obtain ⟨u, v, rfl⟩ := h
  exact ⟨zs ++ u, v, by simp [List.append_assoc]⟩

theorem sub_words_go_underscore (next : Char) (rest : List Char) (mode : WordMode)
    (pending : List Char) :
    sub_words_go ('_' :: next :: rest) mode pending
      = sub_words_go (next :: rest) mode
          (if pending = [] then [] else pending ++ ['_']) := by
  simp [sub_words_go]

theorem sub_words_go_ne_nil (cs : List Char) (mode : WordMode) (pending : List Char) :
    ∀ (hmode : mode = WordMode.Uppercase → pending ≠ []) (sw : List Char),
    sw ∈ sub_words_go cs mode pending → sw ≠ [] := by
  induction cs, mode, pending using sub_words_go.induct with
  | case1 mode pending => intro _ sw h; simp [sub_words_go] at h
  | case2 mode pending => intro _ sw h; simp [sub_words_go] at h
  | case3 c mode pending hc =>
    intro _ sw h
    simp only [sub_words_go, if_neg hc, List.mem_singleton] at h
    subst h; simp
  | case4 next rest mode pending ih =>
    intro hmode sw h
    simp only [sub_words_go, if_pos rfl] at h
    refine ih ?_ sw h
    intro hm
    rcases eq_or_ne pending [] with hp | hp
    · exact absurd hp (hmode hm)
    · simp [hp]
  | case5 c next rest mode pending hc hg ih =>
    intro hmode sw h
    simp only [sub_words_go, if_neg hc, if_pos hg, List.mem_cons] at h
    rcases h with h | h
    · subst h; simp
    · exact ih (fun hB => nomatch hB) sw h
  | case6 c next rest mode pending hc hg1 hg2 ih =>
    intro hmode sw h
    simp only [sub_words_go, if_neg hc, if_neg hg1, if_pos hg2, List.mem_cons] at h
    rcases h with h | h
    · subst h; exact hmode hg2.1
    · exact ih (fun hB => nomatch hB) sw h
  | case7 c next rest mode pending hc hg1 hg2 ih =>
    intro hmode sw h
    simp only [sub_words_go, if_neg hc, if_neg hg1, if_neg hg2] at h
    exact ih (fun _ => by simp) sw h

theorem sub_words_go_no_underscore (cs : List Char) (mode : WordMode)
    (pending : List Char) :
    ∀ (hp : '_' ∉ pending) (hq : pending = [] ∨ cs.head? ≠ some '_') (sw : List Char),
    sw ∈ sub_words_go cs mode pending → '_' ∉ sw := by
  induction cs, mode, pending using sub_words_go.induct with
  | case1 mode pending => intro _ _ sw h; simp [sub_words_go] at h
  | case2 mode pending => intro _ _ sw h; simp [sub_words_go] at h
  | case3 c mode pending hc =>
    intro hp _ sw h
    simp only [sub_words_go, if_neg hc, List.mem_singleton] at h
    subst h
    simp only [List.mem_append, List.mem_singleton]
    rintro (h1 | h1)
    · exact hp h1
    · exact hc h1.symm
  | case4 next rest mode pending ih =>
    intro hp hq sw h
    have hpe : pending = [] := by
      rcases hq with hq | hq
      · exact hq
      · exact absurd rfl hq
    subst hpe
    simp only [sub_words_go, if_pos rfl] at h
    exact ih (by simp) (Or.inl rfl) sw h
  | case5 c next rest mode pending hc hg ih =>
    intro hp _ sw h
    simp only [sub_words_go, if_neg hc, if_pos hg, List.mem_cons] at h
    rcases h with h | h
    · subst h
      simp only [List.mem_append, List.mem_singleton]
      rintro (h1 | h1)
      · exact hp h1
      · exact hc h1.symm
    · exact ih (by simp) (Or.inl rfl) sw h
  | case6 c next rest mode pending hc hg1 hg2 ih =>
    intro hp _ sw h
    simp only [sub_words_go, if_neg hc, if_neg hg1, if_pos hg2, List.mem_cons] at h
    rcases h with h | h
    · subst h; exact hp
    · refine ih ?_ (Or.inr ?_) sw h
      · intro hm
        simp only [List.mem_singleton] at hm
        exact hc hm.symm
      · have hnl := hg2.2.2
        intro he
        simp only [List.head?_cons, Option.some.injEq] at he
        rw [he] at hnl
        exact absurd hnl (by decide)
  | case7 c next rest mode pending hc hg1 hg2 ih =>
    intro hp _ sw h
    simp only [sub_words_go, if_neg hc, if_neg hg1, if_neg hg2] at h
    refine ih ?_ (Or.inr ?_) sw h
    · intro hm
      simp only [List.mem_append, List.mem_singleton] at hm
      rcases hm with h1 | h1
      · exact hp h1
      · exact hc h1.symm
    · intro he
      simp only [List.head?_cons, Option.some.injEq] at he
      exact hg1 (Or.inl he)

theorem sub_words_go_sub_seg (cs : List Char) (mode : WordMode)
    (pending : List Char) :
    ∀ sw ∈ sub_words_go cs mode pending, SubSeg sw (pending ++ cs) := by
  induction cs, mode, pending using sub_words_go.induct with
  | case1 mode pending => intro sw h; simp [sub_words_go] at h
  | case2 mode pending => intro sw h; simp [sub_words_go] at h
  | case3 c mode pending hc =>
    intro sw h
    simp only [sub_words_go, if_neg hc, List.mem_singleton] at h
    subst h
    exact ⟨[], [], by simp⟩
  | case4 next rest mode pending ih =>
    intro sw h
    rw [sub_words_go_underscore] at h
    rcases eq_or_ne pending [] with hp | hp
    · have := ih sw h
      rw [if_pos hp] at this
      subst hp
      simp only [List.nil_append] at this ⊢
      exact SubSeg.prepend ['_'] this
    · have := ih sw h
      rw [if_neg hp] at this
      simpa [List.append_assoc] using this
  | case5 c next rest mode pending hc hg ih =>
    intro sw h
    simp only [sub_words_go, if_neg hc, if_pos hg, List.mem_cons] at h
    rcases h with h | h
    · subst h
      exact ⟨[], next :: rest, by simp⟩
    · have := ih sw h
      simp only [List.nil_append] at this
      have h2 := SubSeg.prepend (pending ++ [c]) this
      simpa [List.append_assoc] using h2
  | case6 c next rest mode pending hc hg1 hg2 ih =>
    intro sw h
    simp only [sub_words_go, if_neg hc, if_neg hg1, if_pos hg2, List.mem_cons] at h
    rcases h with h | h
    · subst h
      exact ⟨[], c :: next :: rest, by simp⟩
    · have := ih sw h
      have h2 := SubSeg.prepend pending this
      simpa [List.append_assoc] using h2
  | case7 c next rest mode pending hc hg1 hg2 ih =>
    intro sw h
    simp only [sub_words_go, if_neg hc, if_neg hg1, if_neg hg2] at h
    have := ih sw h
    simpa [List.append_assoc] using this

theorem sub_words_go_flatten (cs : List Char) (mode : WordMode)
    (pending : List Char) :
    ∀ (hp : '_' ∉ pending) (hq : pending = [] ∨ (cs ≠ [] ∧ cs.head? ≠ some '_')),
    (sub_words_go cs mode pending).flatten
      = pending ++ cs.filter (fun c => !(c == '_')) := by
  induction cs, mode, pending using sub_words_go.induct with
  | case1 mode pending =>
    intro _ hq
    have hpe : pending = [] := by
      rcases hq with hq | hq
      · exact hq
      · exact absurd rfl hq.1
    subst hpe
    simp [sub_words_go]
  | case2 mode pending =>
    intro _ hq
    have hpe : pending = [] := by
      rcases hq with hq | hq
      · exact hq
      · exact absurd rfl hq.2
    subst hpe
    simp [sub_words_go]
  | case3 c mode pending hc =>
    intro _ _
    have hbc : (c == '_') = false := by
      simp only [beq_eq_false_iff_ne, ne_eq]
      exact hc
    simp [sub_words_go, if_neg hc, List.filter_cons, hbc]
  | case4 next rest mode pending ih =>
    intro hp hq
    have hpe : pending = [] := by
      rcases hq with hq | hq
      · exact hq
      · exact absurd rfl hq.2
    rw [sub_words_go_underscore, if_pos hpe]
    have h2 := ih
    rw [if_pos hpe] at h2
    rw [h2 (by simp) (Or.inl rfl), hpe]
    simp [List.filter_cons]
  | case5 c next rest mode pending hc hg ih =>
    intro hp hq
    have hbc : (c == '_') = false := by
      simp only [beq_eq_false_iff_ne, ne_eq]
      exact hc
    simp only [sub_words_go, if_neg hc, if_pos hg, List.flatten_cons]
    rw [ih (by simp) (Or.inl rfl)]
    simp [List.filter_cons, hbc, List.append_assoc]
  | case6 c next rest mode pending hc hg1 hg2 ih =>
    intro hp hq
    have hbc : (c == '_') = false := by
      simp only [beq_eq_false_iff_ne, ne_eq]
      exact hc
    have hnu : next ≠ '_' := by
      have hnl := hg2.2.2
      intro he
      rw [he] at hnl
      exact absurd hnl (by decide)
    simp only [sub_words_go, if_neg hc, if_neg hg1, if_pos hg2, List.flatten_cons]
    rw [ih (fun hm => hc (List.mem_singleton.mp hm).symm)
      (Or.inr ⟨by simp, by simpa using hnu⟩)]
    simp [List.filter_cons, hbc, List.append_assoc]
  | case7 c next rest mode pending hc hg1 hg2 ih =>
    intro hp hq
    have hbc : (c == '_') = false := by
      simp only [beq_eq_false_iff_ne, ne_eq]
      exact hc
    have hnu : next ≠ '_' := fun he => hg1 (Or.inl he)
    have hp2 : '_' ∉ pending ++ [c] := by
      simp only [List.mem_append, List.mem_singleton]
      rintro (h1 | h1)
      · exact hp h1
      · exact hc h1.symm
    simp only [sub_words_go, if_neg hc, if_neg hg1, if_neg hg2]
    rw [ih hp2 (Or.inr ⟨by simp, by simpa using hnu⟩)]
    simp [List.filter_cons, hbc, List.append_assoc]

/-- Per Unicode word: the emitted sub-words, concatenated in order, are the
word with the skipped underscores removed. -/
theorem sub_words_flatten (wd : List Char) :
    (sub_words wd).flatten = wd.filter (fun c => !(c == '_')) := by
  have h := sub_words_go_flatten wd WordMode.Boundary [] (by simp) (Or.inl rfl)
  simpa [sub_words] using h

/-! ## Totality and renderer evaluation -/

theorem run_events_total {σ ε : Type} (w : List Char → σ → Except ε σ)
    (b : σ → Except ε σ) (hw : ∀ sw f, ∃ f2, w sw f = .ok f2)
    (hb : ∀ f, ∃ f2, b f = .ok f2) (evs : List Event) :
    ∀ f : σ, ∃ f2, run_events w b evs f = .ok f2 := by
  induction evs with
  | nil => intro f; exact ⟨f, rfl⟩
  | cons ev evs ih =>
    intro f
    cases ev with
    | word sw =>
      obtain ⟨f1, h1⟩ := hw sw f
      obtain ⟨f2, h2⟩ := ih f1
      exact ⟨f2, by simp [run_events, step_event, h1, h2]⟩
    | boundary =>
      obtain ⟨f1, h1⟩ := hb f
      obtain ⟨f2, h2⟩ := ih f1
      exact ⟨f2, by simp [run_events, step_event, h1, h2]⟩

theorem run_camel_events (ws : List (List Char)) : ∀ (fw : Bool) (f : List Char),
    run_events (fun sw g => Except.ok (g ++ capitalize sw))
      (fun g => (Except.ok g : Except Empty (List Char)))
      (render_events fw ws) f
      = Except.ok (f ++ (ws.map capitalize).flatten) := by
  induction ws with
  | nil => intro fw f; cases fw <;> simp [render_events, run_events]
  | cons sw ws ih =>
    intro fw f
    cases fw <;>
      simp [render_events, run_events, step_event, ih, List.append_assoc]

theorem run_mixed_events_rest (ws : List (List Char)) : ∀ buf : List Char,
    run_events
      (fun sw p =>
        Except.ok (false, p.2 ++ (if p.1 then lowercase sw else capitalize sw)))
      (fun p => (Except.ok p : Except Empty (Bool × List Char)))
      (render_events false ws) (false, buf)
      = Except.ok (false, buf ++ (ws.map capitalize).flatten) := by
  induction ws with
  | nil => intro buf; simp [render_events, run_events]
  | cons sw ws ih =>
    intro buf
    simp [render_events, run_events, step_event, ih, List.append_assoc]

theorem run_mixed_events (ws : List (List Char)) :
    run_events
      (fun sw p =>
        Except.ok (false, p.2 ++ (if p.1 then lowercase sw else capitalize sw)))
      (fun p => (Except.ok p : Except Empty (Bool × List Char)))
      (render_events true ws) (true, [])
      = Except.ok (match ws with
          | [] => (true, ([] : List Char))
          | sw :: rest => (false, lowercase sw ++ (rest.map capitalize).flatten)) := by
  cases ws with
  | nil => simp [render_events, run_events]
  | cons sw rest =>
    simp [render_events, run_events, step_event, run_mixed_events_rest]

theorem camel_chars_eq (s : List Char) :
    camel_chars s = ((all_sub_words s).map capitalize).flatten := by
  simp only [camel_chars, transform_eq_run_trace, transform_trace,
    run_camel_events, List.nil_append]

theorem mixed_chars_eq (s : List Char) :
    mixed_chars s
      = (match all_sub_words s with
          | [] => []
          | sw :: rest => lowercase sw ++ (rest.map capitalize).flatten) := by
  simp only [mixed_chars, transform_eq_run_trace, transform_trace,
    run_mixed_events]
  cases all_sub_words s with
  | nil => rfl
  | cons sw rest => rfl

/-! ## The lowercase transform, characterised -/

theorem lowercase_append_last (cs : List Char) : ∀ c : Char,
    lowercase (cs ++ [c])
      = (cs.map to_lowercase_char).flatten
        ++ (if c = 'Σ' then ['ς'] else to_lowercase_char c) := by
  induction cs with
  | nil => intro c; simp [lowercase]
  | cons d t ih =>
    intro c
    rw [List.cons_append]
    rcases ht : t ++ [c] with _ | ⟨n, r⟩
    · exact absurd ht (by simp)
    · rw [show lowercase (d :: n :: r) = to_lowercase_char d ++ lowercase (n :: r)
        from rfl, ← ht, ih]
      simp [List.append_assoc]

/-! ## The claims -/

/-- C1: acronym-run boundary detection: the input "XMLHttpRequest" is
segmented into the sub-words XML, Http, Request, so `to_camel_case` returns
"XmlHttpRequest" and `to_mixed_case` returns "xmlHttpRequest". -/
theorem claim_acronym_run_boundaries :
    all_sub_words (("XMLHttpRequest").data)
      = [("XML").data, ("Http").data, ("Request").data]
    ∧ to_camel_case ("XMLHttpRequest") = "XmlHttpRequest"
    ∧ to_mixed_case ("XMLHttpRequest") = "xmlHttpRequest" :=
  ⟨by decide, by decide, by decide⟩

/-- C2: callback alternation contract: for every input string and every pair
of callbacks, `transform` runs exactly the event trace consisting of one word
event per detected sub-word in left-to-right order, with a boundary event
interspersed strictly between consecutive word events — never before the
first, never after the last, and not at all when no sub-word is emitted. -/
theorem claim_callback_alternation {σ ε : Type}
    (with_word : List Char → σ → Except ε σ) (boundary : σ → Except ε σ)
    (f : σ) (s : List Char) :
    transform s with_word boundary f
      = run_events with_word boundary
          (List.intersperse Event.boundary ((all_sub_words s).map Event.word)) f
    ∧ transform_trace s
      = List.intersperse Event.boundary ((all_sub_words s).map Event.word) := by
  refine ⟨?_, trace_intersperse s⟩
  rw [transform_eq_run_trace, trace_intersperse]

/-- C3: Greek final-sigma rule: `lowercase` maps each character to its
Unicode lowercase form except that a capital Σ in final position maps to the
final form ς (a non-final Σ maps to σ, as `to_lowercase_char` does); in
particular the camel and mixed conversions of "XΣXΣ baﬄe" are "XσxςBaﬄe" and
"xσxςBaﬄe". -/
theorem claim_lowercase_final_sigma :
    (lowercase [] = []
      ∧ ∀ (cs : List Char) (c : Char),
        lowercase (cs ++ [c])
          = (cs.map to_lowercase_char).flatten
            ++ (if c = 'Σ' then ['ς'] else to_lowercase_char c))
    ∧ to_camel_case ("XΣXΣ baﬄe") = "XσxςBaﬄe"
    ∧ to_mixed_case ("XΣXΣ baﬄe") = "xσxςBaﬄe" :=
  ⟨⟨rfl, lowercase_append_last⟩, by decide, by decide⟩

/-- C4 counterexample: idempotence fails on the code: camel case is not
idempotent on "A B" (the first pass yields "AB", the second "Ab"), and
mixed case is not idempotent on "a B C" ("aBC" then "aBc"). -/
theorem claim_idempotence_counterexample :
    to_camel_case (to_camel_case ("A B")) ≠ to_camel_case ("A B")
    ∧ to_camel_case ("A B") = "AB" ∧ to_camel_case ("AB") = "Ab"
    ∧ to_mixed_case (to_mixed_case ("a B C")) ≠ to_mixed_case ("a B C")
    ∧ to_mixed_case ("a B C") = "aBC" ∧ to_mixed_case ("aBC") = "aBc" :=
  ⟨by decide, by decide, by decide, by decide, by decide, by decide⟩

/-- C4 amended: idempotence holds on the example of the specification:
"CamelCase" is a fixed point of camel case conversion, and mixed case is
idempotent there as well. -/
theorem claim_idempotence_on_example :
    to_camel_case (to_camel_case ("CamelCase")) = to_camel_case ("CamelCase")
    ∧ to_mixed_case (to_mixed_case ("CamelCase")) = to_mixed_case ("CamelCase")
    ∧ to_camel_case ("CamelCase") = "CamelCase"
    ∧ to_mixed_case ("CamelCase") = "camelCase" :=
  ⟨by decide, by decide, by decide, by decide⟩

/-- C5: sub-word invariant: every slice passed to the word callback is
non-empty, contains no underscore, and is a contiguous segment of a Unicode
word of the input; and per Unicode word the emitted sub-words, concatenated
in emission order, are exactly that word with the underscores removed
(left-to-right document order). -/
theorem claim_sub_word_invariant (s sw : List Char)
    (hmem : sw ∈ all_sub_words s) :
    sw ≠ [] ∧ '_' ∉ sw
    ∧ (∃ uw, uw ∈ unicode_words s ∧ SubSeg sw uw)
    ∧ ((unicode_words s).map (fun uw => (sub_words uw).flatten)
        = (unicode_words s).map (fun uw => uw.filter (fun c => !(c == '_')))) := by
  have h0 : sw ∈ ((unicode_words s).map sub_words).flatten := by
    simpa [all_sub_words] using hmem
  obtain ⟨l, hl, hswl⟩ := List.mem_flatten.mp h0
  obtain ⟨uw, huw, rfl⟩ := List.mem_map.mp hl
  simp only [sub_words] at hswl
  refine ⟨?_, ?_, ⟨uw, huw, ?_⟩, ?_⟩
  · exact sub_words_go_ne_nil uw WordMode.Boundary []
      (fun h => nomatch h) sw hswl
  · exact sub_words_go_no_underscore uw WordMode.Boundary []
      (by simp) (Or.inl rfl) sw hswl
  · have h2 := sub_words_go_sub_seg uw WordMode.Boundary [] sw hswl
    simpa using h2
  · simp only [sub_words_flatten]

/-- Witness for C5 at the concrete input "aB_c" and sub-word "a". -/
theorem claim_sub_word_invariant_witness :
    (['a'] ∈ all_sub_words (("aB_c").data))
    ∧ (['a'] ≠ [] ∧ '_' ∉ ['a']
      ∧ (∃ uw, uw ∈ unicode_words (("aB_c").data) ∧ SubSeg ['a'] uw)
      ∧ ((unicode_words (("aB_c").data)).map (fun uw => (sub_words uw).flatten)
          = (unicode_words (("aB_c").data)).map
              (fun uw => uw.filter (fun c => !(c == '_'))))) :=
  ⟨by decide, claim_sub_word_invariant (("aB_c").data) ['a'] (by decide)⟩

/-- C6: delimiter collapse: adjacent boundary indicators fold into a single
word boundary and produce no empty sub-words; the camel conversion of
"mixed_up_ snake_case, with some _spaces" is
"MixedUpSnakeCaseWithSomeSpaces". -/
theorem claim_delimiter_collapse :
    to_camel_case ("mixed_up_ snake_case, with some _spaces")
      = "MixedUpSnakeCaseWithSomeSpaces"
    ∧ all_sub_words (("mixed_up_ snake_case, with some _spaces").data)
      = [("mixed").data, ("up").data, ("snake").data, ("case").data,
         ("with").data, ("some").data, ("spaces").data] :=
  ⟨by decide, by decide⟩

/-- C7: error propagation and immediate abort: if, after some prefix of the
event trace has run successfully, the next callback fails with `e`, then
`transform` returns exactly `Except.error e`, whatever events would have
followed. -/
theorem claim_error_abort {σ ε : Type}
    (with_word : List Char → σ → Except ε σ) (boundary : σ → Except ε σ)
    (s : List Char) (f f1 : σ) (e : ε) (evs1 evs2 : List Event) (ev : Event)
    (htrace : transform_trace s = evs1 ++ ev :: evs2)
    (hpre : run_events with_word boundary evs1 f = .ok f1)
    (hfail : step_event with_word boundary ev f1 = .error e) :
    transform s with_word boundary f = .error e := by
  rw [transform_eq_run_trace, htrace, run_events_append, hpre]
  simp [run_events, hfail]

/-- Witness for C7: on input "a b", a boundary callback that always fails
with 7 makes `transform` return that error. -/
theorem claim_error_abort_witness :
    transform (("a b").data) (fun _ n => (Except.ok n : Except Nat Nat))
      (fun _ => Except.error 7) 0 = Except.error 7 :=
  claim_error_abort (fun _ n => (Except.ok n : Except Nat Nat))
    (fun _ => Except.error 7) (("a b").data) 0 0 7
    [Event.word ['a']] [Event.word ['b']] Event.boundary
    (by decide) rfl rfl

/-- C8: totality: if both callbacks always return success then `transform`
returns success on every input; and both converters map the empty string to
the empty string. -/
theorem claim_totality {σ ε : Type}
    (with_word : List Char → σ → Except ε σ) (boundary : σ → Except ε σ)
    (hw : ∀ sw f, ∃ f2, with_word sw f = .ok f2)
    (hb : ∀ f, ∃ f2, boundary f = .ok f2) (s : List Char) (f : σ) :
    (∃ f2, transform s with_word boundary f = .ok f2)
    ∧ to_camel_case ("") = "" ∧ to_mixed_case ("") = "" := by
  refine ⟨?_, by decide, by decide⟩
  rw [transform_eq_run_trace]
  exact run_events_total with_word boundary hw hb (transform_trace s) f

/-- Witness for C8 at the concrete input "ab cd" with always-succeeding
callbacks. -/
theorem claim_totality_witness :
    (∃ f2, transform (("ab cd").data)
        (fun _ n => (Except.ok (n + 1) : Except Nat Nat))
        (fun n => Except.ok n) 0 = Except.ok f2)
    ∧ to_camel_case ("") = "" ∧ to_mixed_case ("") = "" :=
  claim_totality (fun _ n => (Except.ok (n + 1) : Except Nat Nat))
    (fun n => Except.ok n) (fun _ f => ⟨f + 1, rfl⟩) (fun f => ⟨f, rfl⟩)
    (("ab cd").data) 0

/-- C9: renderer policy: camel case renders every sub-word (including the
first) with `capitalize` and inserts no separator; mixed case renders the
first emitted sub-word with `lowercase` and every later sub-word with
`capitalize`, also with no separator. -/
theorem claim_renderer_policy (s : List Char) :
    camel_chars s = ((all_sub_words s).map capitalize).flatten
    ∧ mixed_chars s
      = (match all_sub_words s with
          | [] => []
          | sw :: rest => lowercase sw ++ (rest.map capitalize).flatten) :=
  ⟨camel_chars_eq s, mixed_chars_eq s⟩

/-- C10: the first character of a sub-word is rendered with its full Unicode
uppercase mapping, which may expand to several characters, so the output can
be longer than the input: "ße" becomes "SSe" and "ﬄe" becomes "FFLe". -/
theorem claim_capitalize_expansion :
    to_camel_case ("ße") = "SSe" ∧ to_camel_case ("ﬄe") = "FFLe"
    ∧ capitalize (("ße").data) = ("SSe").data
    ∧ (to_camel_case ("ße")).length > ("ße").length :=
  ⟨by decide, by decide, by decide, by decide⟩

end Heck
